import Mathlib

/-
Verification development for the LWW-element directed graph
(src/main/lww_directed_graph.py).

The four replica sets are Python dicts.  A dict is modelled as an
insertion-ordered association list: assignment updates the first binding
of an existing key in place (preserving its position) and appends a new
key at the end, exactly as Python dicts behave.  Timestamps are natural
numbers (microseconds since the epoch in the source).  A raised KeyError
is modelled as the value none of an Option-returning function.
-/

namespace LWW

/-- An insertion-ordered map, the model of a Python dict. -/
abbrev Dict (α β : Type) := List (α × β)

namespace Dict

variable {α β : Type} [DecidableEq α]

/-- Python d.get(k): the value of the first binding of k, if any. -/
def getVal : Dict α β → α → Option β
| [], _ => none
| (a, b) :: t, k => if a = k then some b else getVal t k

/-- Python d[k] = v: update the binding in place, else append at the end. -/
def setVal : Dict α β → α → β → Dict α β
| [], k, v => [(k, v)]
| (a, b) :: t, k, v => if a = k then (k, v) :: t else (a, b) :: setVal t k v

/-- Python k in d.keys(). -/
def hasKey (d : Dict α β) (k : α) : Bool := (d.getVal k).isSome

/-- Python list(d.keys()), in insertion order. -/
def keysList (d : Dict α β) : List α := d.map Prod.fst

end Dict

/-- The state of one replica: the four timestamped membership sets of
src/main/lww_directed_graph.py (__init__). -/
structure GraphState (V : Type) where
  vertices_added_set : Dict V Nat
  vertices_removed_set : Dict V Nat
  edges_added_set : Dict V (Dict V Nat)
  edges_removed_set : Dict V (Dict V Nat)
deriving DecidableEq

variable {V : Type} [DecidableEq V]

/-- The state right after __init__: all four sets empty. -/
def emptyGraph : GraphState V := ⟨[], [], [], []⟩

/-- Python `timestamp if timestamp else self._generateTimestamp()`:
None and 0 are both falsy, so an absent or zero argument is replaced by
the freshly generated clock value `now`. -/
def tsOrGen (tsArg : Option Nat) (now : Nat) : Nat :=
match tsArg with
| some t => if t = 0 then now else t
| none => now

/-- addVertex: unconditionally store the timestamp for the vertex. -/
def addVertex (g : GraphState V) (vertex : V) (tsArg : Option Nat) (now : Nat) :
    GraphState V :=
  { g with vertices_added_set :=
      g.vertices_added_set.setVal vertex (tsOrGen tsArg now) }

/-- lookupVertexExists: vertex in added keys, and absent from removed keys
or added timestamp >= removed timestamp (add wins on a tie). -/
def lookupVertexExists (g : GraphState V) (vertex : V) : Bool :=
match g.vertices_added_set.getVal vertex with
| none => false
| some ta =>
  match g.vertices_removed_set.getVal vertex with
  | none => true
  | some tr => decide (ta ≥ tr)

/-- The two-level assignment pattern shared by addEdge and removeEdge:
`if outer.get(frm): outer[frm][to] = ts else: outer[frm] = {to: ts}`.
(An empty inner dict is falsy in Python; replacing it by a fresh
one-element dict coincides with setting the key in it.) -/
def setEdge (outer : Dict V (Dict V Nat)) (frm tgt : V) (ts : Nat) :
    Dict V (Dict V Nat) :=
match outer.getVal frm with
| some inner => outer.setVal frm (inner.setVal tgt ts)
| none => outer.setVal frm (Dict.setVal [] tgt ts)

/-- addEdge: one generated timestamp shared by the edge and any
auto-created endpoints; missing endpoints are added via addVertex. -/
def addEdge (g : GraphState V) (frm tgt : V) (now : Nat) : GraphState V :=
  let timestamp := now
  let g1 := if lookupVertexExists g tgt then g else addVertex g tgt (some timestamp) now
  let g2 := if lookupVertexExists g1 frm then g1 else addVertex g1 frm (some timestamp) now
  { g2 with edges_added_set := setEdge g2.edges_added_set frm tgt timestamp }

/-- removeEdge: unconditionally store the timestamp in edges_removed_set. -/
def removeEdge (g : GraphState V) (frm tgt : V) (tsArg : Option Nat) (now : Nat) :
    GraphState V :=
  let timestamp := tsOrGen tsArg now
  { g with edges_removed_set := setEdge g.edges_removed_set frm tgt timestamp }

/-- One step of the first removeVertex loop: remove an edge originating
from the removed vertex, with the shared timestamp. -/
def removeOutStep (vertex : V) (timestamp now : Nat)
    (acc : GraphState V) (connection : V) : GraphState V :=
  removeEdge acc vertex connection (some timestamp) now

/-- One step of the second removeVertex loop: remove an edge pointing to
the removed vertex, scanning the (unchanged) edges_added_set snapshot. -/
def removeInStep (ea : Dict V (Dict V Nat)) (vertex : V) (timestamp now : Nat)
    (acc : GraphState V) (connection : V) : GraphState V :=
  if connection ≠ vertex ∧ ((ea.getVal connection).getD []).hasKey vertex then
    removeEdge acc connection vertex (some timestamp) now
  else acc

/-- removeVertex: tombstone the vertex, then cascade removeEdge over every
edge that has the vertex as source, then over every edge that has it as
target (scanning all sources), all with the same timestamp. -/
def removeVertex (g : GraphState V) (vertex : V) (now : Nat) : GraphState V :=
  let timestamp := now
  let g1 := { g with vertices_removed_set :=
      g.vertices_removed_set.setVal vertex timestamp }
  let connected := ((g1.edges_added_set.getVal vertex).getD []).keysList
  let g2 := connected.foldl (removeOutStep vertex timestamp now) g1
  g1.edges_added_set.keysList.foldl
    (removeInStep g1.edges_added_set vertex timestamp now) g2

/-- lookupConnectedVertices: the targets of edges_added_set[vertex] whose
removed timestamp (if any) does not exceed their added timestamp. -/
def lookupConnectedVertices (g : GraphState V) (vertex : V) : List V :=
match g.edges_added_set.getVal vertex, g.edges_removed_set.getVal vertex with
| none, _ => []
| some added, none => added.keysList
| some added, some removed =>
  added.keysList.filter (fun connection =>
    match removed.getVal connection with
    | none => true
    | some tr => decide (tr ≤ (added.getVal connection).getD 0))

/-- One step of the _mergeVertices overlap loop: replace the timestamp of
an overlapping key only when the received one is strictly greater. -/
def mergeVerticesStep (localSet receivedSet : Dict V Nat)
    (cur : Dict V Nat) (v : V) : Dict V Nat :=
  match receivedSet.getVal v, localSet.getVal v with
  | some rv, some lv => if rv > lv then cur.setVal v rv else cur
  | _, _ => cur

/-- One step of the copy-in loop shared by both merge functions: copy the
received value of a key present only in the received set. -/
def copyStep {β : Type} (receivedSet : Dict V β) (cur : Dict V β) (v : V) :
    Dict V β :=
  match receivedSet.getVal v with
  | some rv => cur.setVal v rv
  | none => cur

/-- _mergeVertices: start from a copy of the local set; for every key
present in both, take the received timestamp only when strictly greater;
then copy in the keys present only in the received set.  (The source
iterates the overlap as a Python set; the updates touch distinct keys, so
any iteration order yields the same dict, and local key order is used.) -/
def mergeVertices (localSet receivedSet : Dict V Nat) : Dict V Nat :=
  let overlapping := localSet.keysList.filter (fun v => receivedSet.hasKey v)
  let latest := overlapping.foldl (mergeVerticesStep localSet receivedSet) localSet
  (receivedSet.keysList.filter (fun v => ! localSet.hasKey v)).foldl
    (copyStep receivedSet) latest

/-- The inner loop of _mergeEdges for one overlapping source vertex: the
source iterates the LOCAL target keys and indexes received_set[vertex][edge]
without a guard, so a local target key missing from the received inner map
raises KeyError (modelled as none); the first branch of the conditional is
taken whenever the received lookup succeeds, and the elif branch is
unreachable since the iterated keys are keys of the map being updated. -/
def mergeInnerStep (localInner receivedInner : Dict V Nat)
    (acc : Option (Dict V Nat)) (edge : V) : Option (Dict V Nat) :=
  match acc with
  | none => none
  | some cur =>
    match receivedInner.getVal edge, localInner.getVal edge with
    | some rv, some lv => if rv > lv then some (cur.setVal edge rv) else some cur
    | none, _ => none
    | _, none => none

def mergeInner (localInner receivedInner : Dict V Nat) : Option (Dict V Nat) :=
  localInner.keysList.foldl (mergeInnerStep localInner receivedInner)
    (some localInner)

/-- One step of the _mergeEdges overlap loop: merge the two inner maps of
one overlapping source vertex, propagating a KeyError from mergeInner. -/
def mergeEdgesStep (localSet receivedSet : Dict V (Dict V Nat))
    (acc : Option (Dict V (Dict V Nat))) (v : V) :
    Option (Dict V (Dict V Nat)) :=
  match acc with
  | none => none
  | some cur =>
    match localSet.getVal v, receivedSet.getVal v with
    | some li, some ri =>
      match mergeInner li ri with
      | some ni => some (cur.setVal v ni)
      | none => none
    | _, _ => none

/-- _mergeEdges: per-key inner merge for overlapping source vertices (which
can raise KeyError, see mergeInner), then copy in the whole inner map of
every source present only in the received set. -/
def mergeEdges (localSet receivedSet : Dict V (Dict V Nat)) :
    Option (Dict V (Dict V Nat)) :=
  let overlapping := localSet.keysList.filter (fun v => receivedSet.hasKey v)
  match overlapping.foldl (mergeEdgesStep localSet receivedSet) (some localSet) with
  | none => none
  | some cur =>
    some ((receivedSet.keysList.filter (fun v => ! localSet.hasKey v)).foldl
      (copyStep receivedSet) cur)

/-- merge: replace the four local sets by their merge with the received
snapshot.  A KeyError inside _mergeEdges propagates (none). -/
def merge (g : GraphState V) (rva rvr : Dict V Nat)
    (rea rer : Dict V (Dict V Nat)) : Option (GraphState V) :=
  let va := mergeVertices g.vertices_added_set rva
  let vr := mergeVertices g.vertices_removed_set rvr
  match mergeEdges g.edges_added_set rea with
  | none => none
  | some ea =>
    match mergeEdges g.edges_removed_set rer with
    | none => none
    | some er => some ⟨va, vr, ea, er⟩

/-- One step of the findPaths loop body.  The source rebinds `newpaths`
only when the neighbour is not yet on the path; otherwise the binding of a
previous iteration is reused, and an unbound `newpaths` raises NameError,
which is caught and skipped.  The state is (paths, last bound newpaths). -/
def findPathsStep (recur : V → List V → List (List V))
    (path : List V) (st : List (List V) × Option (List (List V))) (vertex : V) :
    List (List V) × Option (List (List V)) :=
  let newpaths := if vertex ∈ path then st.2 else some (recur vertex path)
  match newpaths with
  | none => (st.1, none)
  | some nps => (st.1 ++ nps, some nps)

/-- findPaths, fuel-indexed.  The source recursion terminates because each
recursive call extends the path by a vertex not yet on it; the fuel in
findPaths is large enough to cover every such chain. -/
def findPathsAux (g : GraphState V) : Nat → V → V → List V → List (List V)
| 0, _, _, _ => []
| fuel + 1, vertex1, vertex2, path =>
  let path := path ++ [vertex1]
  if vertex1 = vertex2 then [path]
  else
    (List.foldl
      (findPathsStep (fun v p => findPathsAux g fuel v vertex2 p) path)
      ([], none) (lookupConnectedVertices g vertex1)).1

/-- A recursion-depth bound: one more than the total number of edge
entries, which bounds the number of distinct reachable path extensions. -/
def pathFuel (g : GraphState V) : Nat :=
  g.edges_added_set.foldl (fun n p => n + p.2.length) 0 + 1

/-- findPaths with the default empty path accumulator. -/
def findPaths (g : GraphState V) (vertex1 vertex2 : V) : List (List V) :=
  findPathsAux g (pathFuel g) vertex1 vertex2 []

/-- Does a vertex occur in a two-level edge set, as a source key or as a
target key of some inner map. -/
def occursIn (outer : Dict V (Dict V Nat)) (x : V) : Bool :=
  outer.any (fun p => p.1 = x ∨ p.2.hasKey x)

/-- The states reachable from the fresh graph by the public mutating
operations; a merge step merges in the four sets of another reachable
replica and takes effect when it completes without a KeyError. -/
inductive Reachable : GraphState V → Prop
| empty : Reachable emptyGraph
| addV (g : GraphState V) (v : V) (ts : Option Nat) (now : Nat) :
    Reachable g → Reachable (addVertex g v ts now)
| addE (g : GraphState V) (frm tgt : V) (now : Nat) :
    Reachable g → Reachable (addEdge g frm tgt now)
| remV (g : GraphState V) (v : V) (now : Nat) :
    Reachable g → Reachable (removeVertex g v now)
| remE (g : GraphState V) (frm tgt : V) (ts : Option Nat) (now : Nat) :
    Reachable g → Reachable (removeEdge g frm tgt ts now)
| mrg (g r g2 : GraphState V) :
    Reachable g → Reachable r →
    merge g r.vertices_added_set r.vertices_removed_set
      r.edges_added_set r.edges_removed_set = some g2 → Reachable g2

/-- A replica that added edge 1→2: local side of the merge examples. -/
def gLocal : GraphState Nat := ⟨[], [], [(1, [(2, 10)])], []⟩

/-- A replica that added edges 1→2 and 1→3: received side of the merge
examples; it overlaps gLocal on source 1 but has the extra target 3. -/
def gRemote : GraphState Nat := ⟨[], [], [(1, [(2, 5), (3, 7)])], []⟩

/-- Edges 1→2, 2→3, 2→1 built by addEdge: vertex 2 has the neighbour 1
(already on the path) iterated after the neighbour 3 (which yields a
path), triggering the stale-newpaths append in findPaths. -/
def gCycle : GraphState Nat :=
  addEdge (addEdge (addEdge emptyGraph 1 2 10) 2 3 11) 2 1 12

/-- The state after removeEdge(5, 6, 3) on a fresh graph: a removed-edge
entry whose endpoints were never added. -/
def gRemovedOnly : GraphState Nat := removeEdge emptyGraph 5 6 (some 3) 1

/-- A state whose vertex 7 already carries added-timestamp 5. -/
def gVertex7 : GraphState Nat := ⟨[(7, 5)], [], [], []⟩

/-- A replica that added only edge 1→3: it overlaps gLocal on source 1
with disjoint target keys. -/
def gRemoteDisjoint : GraphState Nat := ⟨[], [], [(1, [(3, 7)])], []⟩

namespace Dict

variable {α β : Type} [DecidableEq α]

theorem getVal_setVal_self (d : Dict α β) (k : α) (v : β) :
    (d.setVal k v).getVal k = some v := by
  induction d with
  | nil => simp [setVal, getVal]
  | cons p t ih =>
    obtain ⟨a, b⟩ := p
    by_cases h : a = k
    · subst h; simp [setVal, getVal]
    · simp [setVal, getVal, h, ih]

theorem getVal_setVal_ne (d : Dict α β) (k k' : α) (v : β) (h : k' ≠ k) :
    (d.setVal k v).getVal k' = d.getVal k' := by
  induction d with
  | nil => simp [setVal, getVal, Ne.symm h]
  | cons p t ih =>
    obtain ⟨a, b⟩ := p
    by_cases hak : a = k
    · subst hak
      simp [setVal, getVal, Ne.symm h]
    · by_cases hak' : a = k'
      · subst hak'; simp [setVal, getVal, hak]
      · simp [setVal, getVal, hak, hak', ih]

theorem setVal_getVal_self (d : Dict α β) (k : α) (v : β)
    (h : d.getVal k = some v) : d.setVal k v = d := by
  induction d with
  | nil => simp [getVal] at h
  | cons p t ih =>
    obtain ⟨a, b⟩ := p
    by_cases hak : a = k
    · subst hak
      simp [getVal] at h
      simp [setVal, h]
    · simp [getVal, hak] at h
      simp [setVal, hak, ih h]

theorem hasKey_iff_getVal (d : Dict α β) (k : α) :
    d.hasKey k = true ↔ ∃ b, d.getVal k = some b := by
  cases h : d.getVal k with
  | none => simp [hasKey, h]
  | some b => simp [hasKey, h]

theorem hasKey_setVal (d : Dict α β) (k k' : α) (v : β) :
    (d.setVal k v).hasKey k' = true ↔ k' = k ∨ d.hasKey k' = true := by
  by_cases h : k' = k
  · subst h
    simp [hasKey_iff_getVal, getVal_setVal_self]
  · simp [hasKey_iff_getVal, getVal_setVal_ne d k k' v h, h]

theorem mem_keysList_iff (d : Dict α β) (k : α) :
    k ∈ d.keysList ↔ ∃ b, d.getVal k = some b := by
  induction d with
  | nil => simp [keysList, getVal]
  | cons p t ih =>
    obtain ⟨a, b⟩ := p
    by_cases hak : a = k
    · subst hak; simp [keysList, getVal]
    · simp [keysList, getVal, hak, Ne.symm hak] at ih ⊢
      exact ih

theorem hasKey_of_mem_keysList (d : Dict α β) (k : α) (h : k ∈ d.keysList) :
    d.hasKey k = true :=
  (hasKey_iff_getVal d k).2 ((mem_keysList_iff d k).1 h)

theorem getVal_mem (d : Dict α β) (k : α) (v : β) (h : d.getVal k = some v) :
    (k, v) ∈ d := by
  induction d with
  | nil => simp [getVal] at h
  | cons p t ih =>
    obtain ⟨a, b⟩ := p
    by_cases hak : a = k
    · subst hak
      simp [getVal] at h
      simp [h]
    · simp [getVal, hak] at h
      exact List.mem_cons_of_mem _ (ih h)

end Dict

theorem foldl_congr_id {γ δ : Type} (f : γ → δ → γ) (c : γ) (xs : List δ)
    (h : ∀ x ∈ xs, f c x = c) : xs.foldl f c = c := by
  induction xs with
  | nil => rfl
  | cons x t ih =>
    rw [List.foldl_cons, h x (by simp)]
    exact ih (fun y hy => h y (by simp [hy]))

theorem foldl_preserves {γ δ : Type} (f : γ → δ → γ) (P : γ → Prop) (c : γ)
    (xs : List δ) (hc : P c) (hstep : ∀ acc x, x ∈ xs → P acc → P (f acc x)) :
    P (xs.foldl f c) := by
  induction xs generalizing c with
  | nil => exact hc
  | cons x t ih =>
    rw [List.foldl_cons]
    exact ih (f c x) (hstep c x (by simp) hc)
      (fun acc y hy hacc => hstep acc y (by simp [hy]) hacc)

theorem keysList_filter_hasKey_self (l : Dict V Nat) :
    l.keysList.filter (fun v => l.hasKey v) = l.keysList :=
  List.filter_eq_self.2 (fun a ha => Dict.hasKey_of_mem_keysList l a ha)

theorem keysList_filter_not_hasKey_self {β : Type} (l : Dict V β) :
    l.keysList.filter (fun v => ! l.hasKey v) = [] := by
  rw [List.filter_eq_nil_iff]
  intro a ha
  simp [Dict.hasKey_of_mem_keysList l a ha]

theorem mergeVerticesStep_self (l : Dict V Nat) (cur : Dict V Nat) (v : V) :
    mergeVerticesStep l l cur v = cur := by
  unfold mergeVerticesStep
  cases h : l.getVal v with
  | none => simp
  | some lv => simp

theorem mergeVertices_self (l : Dict V Nat) : mergeVertices l l = l := by
  unfold mergeVertices
  rw [keysList_filter_not_hasKey_self]
  simp only [List.foldl_nil]
  exact foldl_congr_id _ _ _ (fun v _ => mergeVerticesStep_self l l v)

theorem mergeInnerStep_self (li : Dict V Nat) (e : V) (he : e ∈ li.keysList) :
    mergeInnerStep li li (some li) e = some li := by
  obtain ⟨b, hb⟩ := (Dict.mem_keysList_iff li e).1 he
  unfold mergeInnerStep
  simp [hb]

theorem mergeInner_self (li : Dict V Nat) : mergeInner li li = some li := by
  unfold mergeInner
  exact foldl_congr_id _ _ _ (fun e he => mergeInnerStep_self li e he)

theorem mergeEdgesStep_self (l : Dict V (Dict V Nat)) (v : V)
    (hv : v ∈ l.keysList) : mergeEdgesStep l l (some l) v = some l := by
  obtain ⟨li, hli⟩ := (Dict.mem_keysList_iff l v).1 hv
  unfold mergeEdgesStep
  simp [hli, mergeInner_self, Dict.setVal_getVal_self l v li hli]

theorem mergeEdges_self (l : Dict V (Dict V Nat)) : mergeEdges l l = some l := by
  unfold mergeEdges
  dsimp only
  rw [foldl_congr_id _ _ _
    (fun v hv => mergeEdgesStep_self l v (List.mem_filter.1 hv).1)]
  dsimp only
  rw [keysList_filter_not_hasKey_self, List.foldl_nil]

theorem setEdge_getVal (outer : Dict V (Dict V Nat)) (frm tgt : V) (ts : Nat) :
    ((setEdge outer frm tgt ts).getVal frm).bind (fun inner => inner.getVal tgt)
      = some ts := by
  unfold setEdge
  cases h : outer.getVal frm with
  | none => simp [Dict.getVal_setVal_self]
  | some inner => simp [Dict.getVal_setVal_self]

theorem findPathsAux_no_source (g : GraphState V) (fuel : Nat) (s e : V)
    (path : List V) (hne : s ≠ e) (hs : g.edges_added_set.getVal s = none) :
    findPathsAux g fuel s e path = [] := by
  cases fuel with
  | zero => rfl
  | succ n => simp [findPathsAux, hne, lookupConnectedVertices, hs]

theorem findPathsAux_self (g : GraphState V) (n : Nat) (v : V) (path : List V) :
    findPathsAux g (n + 1) v v path = [path ++ [v]] := by
  simp [findPathsAux]

theorem occursIn_iff (d : Dict V (Dict V Nat)) (x : V) :
    occursIn d x = true ↔ ∃ p ∈ d, p.1 = x ∨ p.2.hasKey x = true := by
  simp [occursIn, List.any_eq_true]

theorem occursIn_of_hasKey (d : Dict V (Dict V Nat)) (x : V)
    (h : d.hasKey x = true) : occursIn d x = true := by
  obtain ⟨iv, hiv⟩ := (Dict.hasKey_iff_getVal d x).1 h
  exact (occursIn_iff d x).2 ⟨(x, iv), Dict.getVal_mem d x iv hiv, Or.inl rfl⟩

theorem occursIn_of_getVal_hasKey (d : Dict V (Dict V Nat)) (v x : V)
    (iv : Dict V Nat) (hv : d.getVal v = some iv) (hx : iv.hasKey x = true) :
    occursIn d x = true :=
  (occursIn_iff d x).2 ⟨(v, iv), Dict.getVal_mem d v iv hv, Or.inr hx⟩

theorem occursIn_setVal (d : Dict V (Dict V Nat)) (k x : V) (nv : Dict V Nat)
    (h : occursIn (d.setVal k nv) x = true) :
    x = k ∨ nv.hasKey x = true ∨ occursIn d x = true := by
  induction d with
  | nil =>
    obtain ⟨p, hp, hpx⟩ := (occursIn_iff _ x).1 h
    simp [Dict.setVal] at hp
    subst hp
    rcases hpx with h1 | h1
    · exact Or.inl h1.symm
    · exact Or.inr (Or.inl h1)
  | cons q t ih =>
    obtain ⟨a, b⟩ := q
    by_cases hak : a = k
    · subst hak
      obtain ⟨p, hp, hpx⟩ := (occursIn_iff _ x).1 h
      simp [Dict.setVal] at hp
      rcases hp with hp | hp
      · subst hp
        rcases hpx with h1 | h1
        · exact Or.inl h1.symm
        · exact Or.inr (Or.inl h1)
      · exact Or.inr (Or.inr ((occursIn_iff _ x).2 ⟨p, by simp [hp], hpx⟩))
    · have hs : Dict.setVal ((a, b) :: t) k nv = (a, b) :: Dict.setVal t k nv := by
        simp [Dict.setVal, hak]
      rw [hs] at h
      obtain ⟨p, hp, hpx⟩ := (occursIn_iff _ x).1 h
      rcases List.mem_cons.1 hp with hp | hp
      · subst hp
        exact Or.inr (Or.inr ((occursIn_iff _ x).2 ⟨(a, b), by simp, hpx⟩))
      · rcases ih ((occursIn_iff _ x).2 ⟨p, hp, hpx⟩) with h1 | h1 | h1
        · exact Or.inl h1
        · exact Or.inr (Or.inl h1)
        · refine Or.inr (Or.inr ?_)
          obtain ⟨q, hq, hqx⟩ := (occursIn_iff _ x).1 h1
          exact (occursIn_iff _ x).2 ⟨q, by simp [hq], hqx⟩

theorem occursIn_setEdge (d : Dict V (Dict V Nat)) (frm tgt x : V) (ts : Nat)
    (h : occursIn (setEdge d frm tgt ts) x = true) :
    x = frm ∨ x = tgt ∨ occursIn d x = true := by
  unfold setEdge at h
  cases hf : d.getVal frm with
  | some inner =>
    rw [hf] at h
    rcases occursIn_setVal d frm x (inner.setVal tgt ts) h with h1 | h1 | h1
    · exact Or.inl h1
    · rcases (Dict.hasKey_setVal inner tgt x ts).1 h1 with h2 | h2
      · exact Or.inr (Or.inl h2)
      · exact Or.inr (Or.inr (occursIn_of_getVal_hasKey d frm x inner hf h2))
    · exact Or.inr (Or.inr h1)
  | none =>
    rw [hf] at h
    rcases occursIn_setVal d frm x (Dict.setVal [] tgt ts) h with h1 | h1 | h1
    · exact Or.inl h1
    · rcases (Dict.hasKey_setVal [] tgt x ts).1 h1 with h2 | h2
      · exact Or.inr (Or.inl h2)
      · simp [Dict.hasKey, Dict.getVal] at h2
    · exact Or.inr (Or.inr h1)

theorem mergeInnerStep_none (li ri : Dict V Nat) (xs : List V) :
    xs.foldl (mergeInnerStep li ri) none = none :=
  foldl_congr_id _ _ _ (fun _ _ => rfl)

theorem mergeInnerStep_cases (li ri : Dict V Nat) (cur : Dict V Nat) (e : V) :
    mergeInnerStep li ri (some cur) e = none ∨
    mergeInnerStep li ri (some cur) e = some cur ∨
    ∃ rv, mergeInnerStep li ri (some cur) e = some (cur.setVal e rv) := by
  unfold mergeInnerStep
  cases hre : ri.getVal e with
  | none => exact Or.inl (by simp)
  | some rv =>
    cases hle : li.getVal e with
    | none => exact Or.inl (by simp)
    | some lv =>
      by_cases h : rv > lv
      · exact Or.inr (Or.inr ⟨rv, by simp [h]⟩)
      · exact Or.inr (Or.inl (by simp [h]))

theorem mergeEdgesStep_none (l r : Dict V (Dict V Nat)) (xs : List V) :
    xs.foldl (mergeEdgesStep l r) none = none :=
  foldl_congr_id _ _ _ (fun _ _ => rfl)

theorem mergeEdgesStep_cases (l r : Dict V (Dict V Nat))
    (cur : Dict V (Dict V Nat)) (v : V) :
    mergeEdgesStep l r (some cur) v = none ∨
    ∃ li ri ni, l.getVal v = some li ∧ r.getVal v = some ri ∧
      mergeInner li ri = some ni ∧
      mergeEdgesStep l r (some cur) v = some (cur.setVal v ni) := by
  unfold mergeEdgesStep
  cases hl : l.getVal v with
  | none => exact Or.inl (by simp)
  | some li =>
    cases hr : r.getVal v with
    | none => exact Or.inl (by simp)
    | some ri =>
      cases hm : mergeInner li ri with
      | none => exact Or.inl (by simp [hm])
      | some ni => exact Or.inr ⟨li, ri, ni, rfl, rfl, hm, by simp [hm]⟩

theorem mergeInner_fold_keys (li ri : Dict V Nat) (xs : List V)
    (cur ni : Dict V Nat)
    (hcur : ∀ x, cur.hasKey x = true → li.hasKey x = true)
    (hres : xs.foldl (mergeInnerStep li ri) (some cur) = some ni) :
    ∀ x, ni.hasKey x = true → li.hasKey x = true := by
  induction xs generalizing cur with
  | nil =>
    rw [List.foldl_nil] at hres
    cases hres
    exact hcur
  | cons e t ih =>
    rw [List.foldl_cons] at hres
    rcases mergeInnerStep_cases li ri cur e with hc | hc | ⟨rv, hc⟩
    · rw [hc, mergeInnerStep_none] at hres
      cases hres
    · rw [hc] at hres
      exact ih cur hcur hres
    · rw [hc] at hres
      refine ih (cur.setVal e rv) ?_ hres
      intro x hx
      rcases (Dict.hasKey_setVal cur e x rv).1 hx with h1 | h1
      · subst h1
        rcases mergeInnerStep_cases li ri cur x with h2 | h2 | ⟨rv2, h2⟩ <;>
          [skip; skip; skip] <;>
            (unfold mergeInnerStep at hc
             cases hle : li.getVal x with
             | none => simp [hle] at hc; cases hre : ri.getVal x <;>
                 simp [hre, hle] at hc
             | some lv => exact (Dict.hasKey_iff_getVal li x).2 ⟨lv, hle⟩)
      · exact hcur x h1

theorem mergeInner_keys (li ri ni : Dict V Nat)
    (h : mergeInner li ri = some ni) :
    ∀ x, ni.hasKey x = true → li.hasKey x = true :=
  mergeInner_fold_keys li ri li.keysList li ni (fun _ hx => hx) h

theorem mergeEdges_fold_occurs (l r : Dict V (Dict V Nat)) (xs : List V)
    (cur m : Dict V (Dict V Nat))
    (hcur : ∀ x, occursIn cur x = true →
      occursIn l x = true ∨ occursIn r x = true)
    (hres : xs.foldl (mergeEdgesStep l r) (some cur) = some m) :
    ∀ x, occursIn m x = true → occursIn l x = true ∨ occursIn r x = true := by
  induction xs generalizing cur with
  | nil =>
    rw [List.foldl_nil] at hres
    cases hres
    exact hcur
  | cons v t ih =>
    rw [List.foldl_cons] at hres
    rcases mergeEdgesStep_cases l r cur v with hc | ⟨li, ri, ni, hl, hr, hm, hc⟩
    · rw [hc, mergeEdgesStep_none] at hres
      cases hres
    · rw [hc] at hres
      refine ih (cur.setVal v ni) ?_ hres
      intro x hx
      rcases occursIn_setVal cur v x ni hx with h1 | h1 | h1
      · subst h1
        exact Or.inl (occursIn_of_hasKey l x
          ((Dict.hasKey_iff_getVal l x).2 ⟨li, hl⟩))
      · exact Or.inl (occursIn_of_getVal_hasKey l v x li hl
          (mergeInner_keys li ri ni hm x h1))
      · exact hcur x h1

theorem copy_fold_occurs (r : Dict V (Dict V Nat)) (xs : List V)
    (cur : Dict V (Dict V Nat)) (x : V)
    (h : occursIn (xs.foldl (copyStep r) cur) x = true) :
    occursIn cur x = true ∨ occursIn r x = true := by
  induction xs generalizing cur with
  | nil => exact Or.inl h
  | cons v t ih =>
    rw [List.foldl_cons] at h
    rcases ih (copyStep r cur v) h with h1 | h1
    · unfold copyStep at h1
      cases hrv : r.getVal v with
      | none =>
        rw [hrv] at h1
        exact Or.inl h1
      | some ri =>
        rw [hrv] at h1
        rcases occursIn_setVal cur v x ri h1 with h2 | h2 | h2
        · subst h2
          exact Or.inr (occursIn_of_hasKey r x
            ((Dict.hasKey_iff_getVal r x).2 ⟨ri, hrv⟩))
        · exact Or.inr (occursIn_of_getVal_hasKey r v x ri hrv h2)
        · exact Or.inl h2
    · exact Or.inr h1

theorem mergeEdges_occurs (l r : Dict V (Dict V Nat))
    (m : Dict V (Dict V Nat)) (h : mergeEdges l r = some m) :
    ∀ x, occursIn m x = true → occursIn l x = true ∨ occursIn r x = true := by
  unfold mergeEdges at h
  dsimp only at h
  cases hf : (l.keysList.filter (fun v => r.hasKey v)).foldl
      (mergeEdgesStep l r) (some l) with
  | none => rw [hf] at h; cases h
  | some cur =>
    rw [hf] at h
    cases h
    intro x hx
    rcases copy_fold_occurs r _ cur x hx with h1 | h1
    · exact mergeEdges_fold_occurs l r _ l cur (fun y hy => Or.inl hy) hf x h1
    · exact Or.inr h1

theorem hasKey_foldl_mergeVerticesStep (lS rS : Dict V Nat) (xs : List V)
    (cur : Dict V Nat) (x : V) (h : cur.hasKey x = true) :
    (xs.foldl (mergeVerticesStep lS rS) cur).hasKey x = true := by
  refine foldl_preserves _ (fun d : Dict V Nat => d.hasKey x = true) _ _ h ?_
  intro acc v _ hacc
  unfold mergeVerticesStep
  cases rS.getVal v with
  | none => cases lS.getVal v <;> exact hacc
  | some rv =>
    cases lS.getVal v with
    | none => exact hacc
    | some lv =>
      by_cases hgt : rv > lv
      · simp only [hgt, if_pos]
        exact (Dict.hasKey_setVal acc v x rv).2 (Or.inr hacc)
      · simp only [hgt, if_neg]
        exact hacc

theorem hasKey_foldl_copyStep_mono {β : Type} (rS : Dict V β) (xs : List V)
    (cur : Dict V β) (x : V) (h : cur.hasKey x = true) :
    (xs.foldl (copyStep rS) cur).hasKey x = true := by
  refine foldl_preserves _ (fun d : Dict V β => d.hasKey x = true) _ _ h ?_
  intro acc v _ hacc
  unfold copyStep
  cases rS.getVal v with
  | none => exact hacc
  | some rv => exact (Dict.hasKey_setVal acc v x rv).2 (Or.inr hacc)

theorem hasKey_foldl_copyStep_mem {β : Type} (rS : Dict V β) (xs : List V)
    (cur : Dict V β) (x : V) (hx : x ∈ xs) (hr : rS.hasKey x = true) :
    (xs.foldl (copyStep rS) cur).hasKey x = true := by
  induction xs generalizing cur with
  | nil => cases hx
  | cons v t ih =>
    rw [List.foldl_cons]
    rcases List.mem_cons.1 hx with h1 | h1
    · subst h1
      apply hasKey_foldl_copyStep_mono
      obtain ⟨rv, hrv⟩ := (Dict.hasKey_iff_getVal rS x).1 hr
      unfold copyStep
      rw [hrv]
      exact (Dict.hasKey_setVal cur x x rv).2 (Or.inl rfl)
    · exact ih (copyStep rS cur v) h1

theorem hasKey_mergeVertices (lS rS : Dict V Nat) (x : V)
    (h : lS.hasKey x = true ∨ rS.hasKey x = true) :
    (mergeVertices lS rS).hasKey x = true := by
  unfold mergeVertices
  dsimp only
  by_cases hl : lS.hasKey x = true
  · exact hasKey_foldl_copyStep_mono rS _ _ x
      (hasKey_foldl_mergeVerticesStep lS rS _ lS x hl)
  · rcases h with h1 | h1
    · exact absurd h1 hl
    · refine hasKey_foldl_copyStep_mem rS _ _ x ?_ h1
      rw [List.mem_filter]
      refine ⟨?_, by simp [hl]⟩
      obtain ⟨rv, hrv⟩ := (Dict.hasKey_iff_getVal rS x).1 h1
      exact (Dict.mem_keysList_iff rS x).2 ⟨rv, hrv⟩

theorem lookupVertexExists_hasKey (g : GraphState V) (v : V)
    (h : lookupVertexExists g v = true) :
    g.vertices_added_set.hasKey v = true := by
  unfold lookupVertexExists at h
  cases ha : g.vertices_added_set.getVal v with
  | none => rw [ha] at h; cases h
  | some ta => exact (Dict.hasKey_iff_getVal _ v).2 ⟨ta, ha⟩

theorem addEdge_edges (g : GraphState V) (frm tgt : V) (now : Nat) :
    (addEdge g frm tgt now).edges_added_set
      = setEdge g.edges_added_set frm tgt now := by
  unfold addEdge
  dsimp only
  split <;> split <;> rfl

theorem addEdge_vertices (g : GraphState V) (frm tgt : V) (now : Nat) :
    (addEdge g frm tgt now).vertices_added_set.hasKey frm = true ∧
    (addEdge g frm tgt now).vertices_added_set.hasKey tgt = true ∧
    ∀ x, g.vertices_added_set.hasKey x = true →
      (addEdge g frm tgt now).vertices_added_set.hasKey x = true := by
  unfold addEdge
  dsimp only
  by_cases h1 : lookupVertexExists g tgt
  · rw [if_pos h1]
    by_cases h2 : lookupVertexExists g frm
    · rw [if_pos h2]
      exact ⟨lookupVertexExists_hasKey g frm h2, lookupVertexExists_hasKey g tgt h1,
        fun x hx => hx⟩
    · rw [if_neg h2]
      refine ⟨(Dict.hasKey_setVal _ frm frm _).2 (Or.inl rfl),
        (Dict.hasKey_setVal _ frm tgt _).2 (Or.inr (lookupVertexExists_hasKey g tgt h1)),
        fun x hx => (Dict.hasKey_setVal _ frm x _).2 (Or.inr hx)⟩
  · rw [if_neg h1]
    by_cases h2 : lookupVertexExists (addVertex g tgt (some now) now) frm
    · rw [if_pos h2]
      exact ⟨lookupVertexExists_hasKey _ frm h2,
        (Dict.hasKey_setVal _ tgt tgt _).2 (Or.inl rfl),
        fun x hx => (Dict.hasKey_setVal _ tgt x _).2 (Or.inr hx)⟩
    · rw [if_neg h2]
      refine ⟨(Dict.hasKey_setVal _ frm frm _).2 (Or.inl rfl),
        (Dict.hasKey_setVal _ frm tgt _).2
          (Or.inr ((Dict.hasKey_setVal _ tgt tgt _).2 (Or.inl rfl))),
        fun x hx => (Dict.hasKey_setVal _ frm x _).2
          (Or.inr ((Dict.hasKey_setVal _ tgt x _).2 (Or.inr hx)))⟩

theorem removeVertex_preserves (g : GraphState V) (v : V) (now : Nat) :
    (removeVertex g v now).edges_added_set = g.edges_added_set ∧
    (removeVertex g v now).vertices_added_set = g.vertices_added_set := by
  unfold removeVertex
  dsimp only
  refine foldl_preserves _
    (fun s : GraphState V => s.edges_added_set = g.edges_added_set ∧
      s.vertices_added_set = g.vertices_added_set) _ _ ?_ ?_
  · refine foldl_preserves _
      (fun s : GraphState V => s.edges_added_set = g.edges_added_set ∧
        s.vertices_added_set = g.vertices_added_set) _ _ ⟨rfl, rfl⟩ ?_
    intro acc c _ h
    exact h
  · intro acc c _ h
    unfold removeInStep
    split
    · exact h
    · exact h

theorem merge_inversion (g : GraphState V) (rva rvr : Dict V Nat)
    (rea rer : Dict V (Dict V Nat)) (g2 : GraphState V)
    (h : merge g rva rvr rea rer = some g2) :
    g2.vertices_added_set = mergeVertices g.vertices_added_set rva ∧
    ∃ ea, mergeEdges g.edges_added_set rea = some ea ∧
      g2.edges_added_set = ea := by
  unfold merge at h
  dsimp only at h
  cases h1 : mergeEdges g.edges_added_set rea with
  | none => rw [h1] at h; cases h
  | some ea =>
    rw [h1] at h
    cases h2 : mergeEdges g.edges_removed_set rer with
    | none => rw [h2] at h; cases h
    | some er =>
      rw [h2] at h
      cases h
      exact ⟨rfl, ea, rfl, rfl⟩

/-- Claim C1: the spec claims _mergeEdges merges the inner maps of an
overlapping source vertex over the union of their target keys.  The code
iterates only the local target keys: with local inner map {2: 10} and
received inner map {3: 7} it raises KeyError (modelled as none), and with
received inner map {2: 11, 3: 7} it completes but silently drops the
remote-only target 3, so the union never appears. -/
theorem claim1_mergeEdges_union_fails :
    mergeEdges ([(1, [(2, 10)])] : Dict Nat (Dict Nat Nat)) [(1, [(3, 7)])]
      = none ∧
    mergeEdges ([(1, [(2, 10)])] : Dict Nat (Dict Nat Nat)) [(1, [(2, 11), (3, 7)])]
      = some [(1, [(2, 11)])] := by
  constructor <;> rfl

/-- Claim C2: the spec claims every documented operation, merge included,
is total.  Merging a snapshot whose edges_added_set overlaps the local one
on source 1 but has the disjoint target key 3 raises KeyError inside
_mergeEdges (modelled as none), so merge is not total. -/
theorem claim2_merge_raises :
    merge gLocal gRemoteDisjoint.vertices_added_set
      gRemoteDisjoint.vertices_removed_set gRemoteDisjoint.edges_added_set
      gRemoteDisjoint.edges_removed_set = none := by
  rfl

/-- Claim C3: merge is not commutative.  Merging gRemote into gLocal
completes (keeping the local edge sets, remote-only target 3 dropped),
but merging gLocal into gRemote raises KeyError on the local target 3
missing from the received inner map, so merge(A,B) and merge(B,A)
disagree. -/
theorem claim3_merge_not_commutative :
    merge gLocal gRemote.vertices_added_set gRemote.vertices_removed_set
      gRemote.edges_added_set gRemote.edges_removed_set = some gLocal ∧
    merge gRemote gLocal.vertices_added_set gLocal.vertices_removed_set
      gLocal.edges_added_set gLocal.edges_removed_set = none := by
  constructor <;> rfl

/-- Claim C5 counterexample: findPaths performs no existence check on its
endpoints; on the fresh graph, vertex 8 does not exist, yet
findPaths(8, 8) returns [[8]] rather than the empty sequence the claim
requires for a nonexistent start == end pair. -/
theorem claim5_no_existence_guard :
    lookupVertexExists (emptyGraph : GraphState Nat) 8 = false ∧
    findPaths (emptyGraph : GraphState Nat) 8 8 = [[8]] := by
  constructor <;> rfl

/-- Claim C5 (amended): findPaths never raises; when start ≠ end and start
has no entry in EdgesAdded (in particular when start was never added to
the graph), the result is empty; but when start == end the singleton path
is returned unconditionally, with no existence check on the vertex. -/
theorem claim5_amended (g : GraphState V) (s e : V) (hne : s ≠ e)
    (hs : g.edges_added_set.getVal s = none) :
    findPaths g s e = [] ∧ ∀ v : V, findPaths g v v = [[v]] := by
  constructor
  · exact findPathsAux_no_source g (pathFuel g) s e [] hne hs
  · intro v
    show findPathsAux g (pathFuel g) v v [] = [[v]]
    rw [pathFuel, findPathsAux_self]
    simp

/-- Witness for claim C5 (amended) at the fresh graph with start 0,
end 1. -/
theorem claim5_amended_witness :
    findPaths (emptyGraph : GraphState Nat) 0 1 = [] ∧
    ∀ v : Nat, findPaths (emptyGraph : GraphState Nat) v v = [[v]] :=
  claim5_amended emptyGraph 0 1 (by decide) rfl

/-- Claim C7: merge is idempotent — merging the four sets of any state S
into S itself completes and leaves all four sets exactly as they were. -/
theorem claim7_merge_idempotent (S : GraphState V) :
    merge S S.vertices_added_set S.vertices_removed_set
      S.edges_added_set S.edges_removed_set = some S := by
  unfold merge
  dsimp only
  rw [mergeEdges_self]
  dsimp only
  rw [mergeEdges_self]
  dsimp only
  rw [mergeVertices_self, mergeVertices_self]

/-- Claim C8 counterexample: a state in which vertex 7 has added-timestamp
5; addVertex(7, 3) overwrites it with the strictly smaller timestamp 3,
so the stored added-timestamp of an existing key can decrease. -/
theorem claim8_overwrite_decreases :
    gVertex7.vertices_added_set.getVal 7 = some 5 ∧
    (addVertex gVertex7 7 (some 3) 99).vertices_added_set.getVal 7 = some 3 ∧
    3 < 5 := by
  refine ⟨rfl, rfl, by decide⟩

/-- Claim C8 (amended): addVertex overwrites unconditionally — for any
state and any nonzero caller-supplied timestamp t, the stored
added-timestamp becomes exactly t, whether or not t exceeds the previous
value. -/
theorem claim8_unconditional_overwrite (g : GraphState V) (k : V) (t now : Nat)
    (ht : t ≠ 0) :
    (addVertex g k (some t) now).vertices_added_set.getVal k = some t := by
  unfold addVertex
  simp [tsOrGen, ht, Dict.getVal_setVal_self]

/-- Witness for claim C8 (amended): overwriting timestamp 5 of vertex 7
with the smaller nonzero timestamp 3 stores exactly 3. -/
theorem claim8_unconditional_overwrite_witness :
    (addVertex gVertex7 7 (some 3) 99).vertices_added_set.getVal 7 = some 3 :=
  claim8_unconditional_overwrite gVertex7 7 3 99 (by decide)

/-- Claim C10: an explicit timestamp 0 is falsy in the source, so
addVertex(v, 0) and removeEdge(frm, tgt, 0) behave exactly like the
no-timestamp calls and store the freshly generated clock value, while any
nonzero supplied timestamp is stored exactly as given. -/
theorem claim10_zero_timestamp (g : GraphState V) (v frm tgt : V) (t now : Nat)
    (ht : t ≠ 0) :
    addVertex g v (some 0) now = addVertex g v none now ∧
    (addVertex g v (some 0) now).vertices_added_set.getVal v = some now ∧
    removeEdge g frm tgt (some 0) now = removeEdge g frm tgt none now ∧
    ((removeEdge g frm tgt (some 0) now).edges_removed_set.getVal frm).bind
      (fun inner => inner.getVal tgt) = some now ∧
    (addVertex g v (some t) now).vertices_added_set.getVal v = some t ∧
    ((removeEdge g frm tgt (some t) now).edges_removed_set.getVal frm).bind
      (fun inner => inner.getVal tgt) = some t := by
  refine ⟨rfl, ?_, rfl, ?_, ?_, ?_⟩
  · simp [addVertex, tsOrGen, Dict.getVal_setVal_self]
  · exact setEdge_getVal g.edges_removed_set frm tgt now
  · simp [addVertex, tsOrGen, ht, Dict.getVal_setVal_self]
  · show ((setEdge g.edges_removed_set frm tgt (tsOrGen (some t) now)).getVal
        frm).bind (fun inner => inner.getVal tgt) = some t
    rw [tsOrGen, if_neg ht]
    exact setEdge_getVal g.edges_removed_set frm tgt t

/-- Claim C9: on the graph with edges 1→2, 2→3, 2→1 (built by addEdge),
findPaths(1, 3) visits the neighbours of 2 in insertion order [3, 1]; the
neighbour 1 is already on the path, so the newpaths binding left over from
neighbour 3 is appended a second time and the simple path [1, 2, 3] occurs
twice in the output. -/
theorem claim9_duplicate_path :
    findPaths gCycle 1 3 = [[1, 2, 3], [1, 2, 3]] ∧
    ¬ (findPaths gCycle 1 3).Nodup := by
  exact ⟨rfl, by decide⟩

/-- Claim C6: lookupVertexExists(v) is true iff v has an added entry whose
timestamp is not strictly below its removed entry (absent removed entry
counts as existing, and the add wins on an exact tie); and t is among
lookupConnectedVertices(v) iff t is a target of EdgesAdded[v] whose
removed timestamp, when present at all, is at most its added timestamp
(add wins on a tie). -/
theorem claim6_lookup_characterisation (g : GraphState V) (v t : V) :
    (lookupVertexExists g v = true ↔
      ∃ ta, g.vertices_added_set.getVal v = some ta ∧
        (g.vertices_removed_set.getVal v = none ∨
         ∃ tr, g.vertices_removed_set.getVal v = some tr ∧ tr ≤ ta)) ∧
    (t ∈ lookupConnectedVertices g v ↔
      ∃ ia ta, g.edges_added_set.getVal v = some ia ∧ ia.getVal t = some ta ∧
        (g.edges_removed_set.getVal v = none ∨
         ∃ ir, g.edges_removed_set.getVal v = some ir ∧
           (ir.getVal t = none ∨ ∃ tr, ir.getVal t = some tr ∧ tr ≤ ta))) := by
  constructor
  · unfold lookupVertexExists
    cases ha : g.vertices_added_set.getVal v with
    | none => simp [ha]
    | some ta =>
      cases hr : g.vertices_removed_set.getVal v with
      | none => simp [ha, hr]
      | some tr => simp [ha, hr, ge_iff_le]
  · unfold lookupConnectedVertices
    cases hea : g.edges_added_set.getVal v with
    | none => simp [hea]
    | some added =>
      cases her : g.edges_removed_set.getVal v with
      | none => simp [hea, her, Dict.mem_keysList_iff]
      | some removed =>
        cases hrt : removed.getVal t with
        | none =>
          simp [hea, her, hrt, List.mem_filter, Dict.mem_keysList_iff]
        | some tr =>
          cases hat : added.getVal t with
          | none =>
            simp [hea, her, hrt, hat, List.mem_filter, Dict.mem_keysList_iff]
          | some ta =>
            simp [hea, her, hrt, hat, List.mem_filter, Dict.mem_keysList_iff]

/-- Witness for claim C10 at the fresh graph with nonzero timestamp 9. -/
theorem claim10_zero_timestamp_witness :
    (addVertex (emptyGraph : GraphState Nat) 1 (some 0) 4).vertices_added_set.getVal 1
      = some 4 ∧
    (addVertex (emptyGraph : GraphState Nat) 1 (some 9) 4).vertices_added_set.getVal 1
      = some 9 :=
  ⟨(claim10_zero_timestamp emptyGraph 1 2 3 9 4 (by decide)).2.1,
   (claim10_zero_timestamp emptyGraph 1 2 3 9 4 (by decide)).2.2.2.2.1⟩

/-- Claim C4 counterexample: removeEdge(5, 6) on the fresh graph yields a
reachable state whose edges_removed_set references vertices 5 and 6, yet
neither has an entry in vertices_added_set — so the claimed invariant
fails for vertices occurring only in EdgesRemoved. -/
theorem claim4_removed_edges_escape :
    Reachable gRemovedOnly ∧
    occursIn gRemovedOnly.edges_removed_set 5 = true ∧
    occursIn gRemovedOnly.edges_removed_set 6 = true ∧
    gRemovedOnly.vertices_added_set.hasKey 5 = false ∧
    gRemovedOnly.vertices_added_set.hasKey 6 = false :=
  ⟨Reachable.remE emptyGraph 5 6 (some 3) 1 Reachable.empty, rfl, rfl, rfl, rfl⟩

/-- Claim C4 (amended): in every reachable state (any sequence of
addVertex, addEdge, removeVertex, removeEdge and completed merges with
reachable replicas, from the fresh graph), every vertex occurring in
edges_added_set — as a source key or as a target key of an inner map —
has an entry in vertices_added_set.  The claim as stated also covers
edges_removed_set, which removeEdge on never-added endpoints violates. -/
theorem claim4_edges_added_invariant (g : GraphState V) (hg : Reachable g) :
    ∀ x, occursIn g.edges_added_set x = true →
      g.vertices_added_set.hasKey x = true := by
  induction hg with
  | empty => intro x hx; cases hx
  | addV g0 v ts now hr ih =>
    intro x hx
    exact (Dict.hasKey_setVal _ v x _).2 (Or.inr (ih x hx))
  | addE g0 frm tgt now hr ih =>
    intro x hx
    rw [addEdge_edges] at hx
    rcases occursIn_setEdge g0.edges_added_set frm tgt x now hx with h1 | h1 | h1
    · rw [h1]; exact (addEdge_vertices g0 frm tgt now).1
    · rw [h1]; exact (addEdge_vertices g0 frm tgt now).2.1
    · exact (addEdge_vertices g0 frm tgt now).2.2 x (ih x h1)
  | remV g0 v now hr ih =>
    intro x hx
    rw [(removeVertex_preserves g0 v now).1] at hx
    rw [(removeVertex_preserves g0 v now).2]
    exact ih x hx
  | remE g0 frm tgt ts now hr ih =>
    intro x hx
    exact ih x hx
  | mrg g0 r g2 hg0 hrr hmerge ih0 ihr =>
    intro x hx
    obtain ⟨hva, ea, hea, heq⟩ := merge_inversion g0 _ _ _ _ g2 hmerge
    rw [heq] at hx
    rw [hva]
    rcases mergeEdges_occurs g0.edges_added_set r.edges_added_set ea hea x hx
      with h1 | h1
    · exact hasKey_mergeVertices _ _ x (Or.inl (ih0 x h1))
    · exact hasKey_mergeVertices _ _ x (Or.inr (ihr x h1))

/-- Witness for claim C4 (amended): addEdge(1, 2) from the fresh graph is
reachable, vertex 2 occurs in its edges_added_set, and the invariant gives
it an entry in vertices_added_set. -/
theorem claim4_edges_added_invariant_witness :
    (addEdge (emptyGraph : GraphState Nat) 1 2 5).vertices_added_set.hasKey 2
      = true :=
  claim4_edges_added_invariant (addEdge emptyGraph 1 2 5)
    (Reachable.addE emptyGraph 1 2 5 Reachable.empty) 2 rfl

end LWW
